import Mathlib

/-!
Verification of the llm-sanitizer streaming orchestration core.

Shallow embedding of:
 * the recursive text splitter (`splitText` / `_splitRecursive` in
   `src/content/modal.js`), with text modelled as `List Char`;
 * the chunk orchestrator of `OpenAIAgentsProvider`
   (`src/providers/chrome-summarizer.js`): `_streamChunk`,
   `_processChunkWithRetry`, the chunk loop of `call`, and the
   effective chunk budget computation;
 * the shared constants (`src/shared/constants.js`).

The streaming backend is modelled as an oracle mapping a chunk text to the
deltas its stream emits and an optional error kind; error-message
classification (`isContextError`, `formatErrorMessage`) is modelled at the
kind level (`ErrKind`), since all control flow in the source branches only
on the classification of an error, never on the raw message text.
-/

set_option maxRecDepth 10000

namespace LlmSanitizer

/-! ### Text splitter (src/content/modal.js lines 411-459) -/

/-- `const SEPARATORS = ['\n\n', '\n', '. ', ' ']`. -/
def SEPARATORS : List (List Char) := [['\n', '\n'], ['\n'], ['.', ' '], [' ']]

/-- First occurrence of `sep` in `text`: `some (pre, post)` with
`text = pre ++ sep ++ post`, scanning left to right (the semantics of
JavaScript `String.prototype.split` boundaries for a non-empty separator). -/
def findSep (sep : List Char) : List Char → Option (List Char × List Char)
  | [] => none
  | c :: cs =>
    if sep.isPrefixOf (c :: cs) then some ([], (c :: cs).drop sep.length)
    else
      match findSep sep cs with
      | some (pre, post) => some (c :: pre, post)
      | none => none

/-- Fuelled repeated split; with `fuel ≥ text.length` and a non-empty
separator this computes all parts of JavaScript `text.split(sep)`. -/
def splitOnFuel (sep : List Char) : Nat → List Char → List (List Char)
  | 0, text => [text]
  | fuel + 1, text =>
    match findSep sep text with
    | none => [text]
    | some (pre, post) => pre :: splitOnFuel sep fuel post

/-- `text.split(sep)` for a non-empty separator (all SEPARATORS are
non-empty, matching the only uses in the source). -/
def splitOnSep (sep text : List Char) : List (List Char) :=
  splitOnFuel sep text.length text

/-- One step of the greedy merge loop of `_splitRecursive`
(lines 439-451): state is the remaining parts and `current`. -/
def mergeLoop (sep : List Char) (maxChars : Nat) :
    List (List Char) → List Char → List (List Char)
  | [], current => if current = [] then [] else [current]
  | part :: rest, current =>
    let candidate := if current = [] then part else current ++ sep ++ part
    if candidate.length ≤ maxChars then mergeLoop sep maxChars rest candidate
    else if current = [] then mergeLoop sep maxChars rest part
    else current :: mergeLoop sep maxChars rest part

/-- The merge pass starting from empty `current`. -/
def mergeParts (sep : List Char) (maxChars : Nat) (parts : List (List Char)) :
    List (List Char) :=
  mergeLoop sep maxChars parts []

/-- Fuelled hard fixed-width slice (lines 422-427); with
`fuel ≥ text.length` and `maxChars ≥ 1` this is the source's
`for (i = 0; i < length; i += maxChars) push(slice(i, i + maxChars))`.
(For `maxChars = 0` the JavaScript loop never terminates; every claim
assumes a bound `≥ 1`.) -/
def hardSliceFuel (maxChars : Nat) : Nat → List Char → List (List Char)
  | _, [] => []
  | 0, text => [text]
  | fuel + 1, text =>
    text.take maxChars :: hardSliceFuel maxChars fuel (text.drop maxChars)

def hardSlice (maxChars : Nat) (text : List Char) : List (List Char) :=
  hardSliceFuel maxChars text.length text

/-- `_splitRecursive(text, maxChars, sepIdx)`; the `sepIdx` cursor into the
fixed `SEPARATORS` array is represented by the remaining suffix of
separators (the source only ever reads `SEPARATORS[sepIdx]` and recurses
with `sepIdx + 1`). -/
def splitRecursive (maxChars : Nat) : List (List Char) → List Char → List (List Char)
  | [], text =>
    if text.length ≤ maxChars then [text] else hardSlice maxChars text
  | sep :: rest, text =>
    if text.length ≤ maxChars then [text]
    else
      let parts := splitOnSep sep text
      if parts.length ≤ 1 then splitRecursive maxChars rest text
      else
        (mergeParts sep maxChars parts).flatMap fun chunk =>
          if maxChars < chunk.length then splitRecursive maxChars rest chunk
          else [chunk]

/-- `splitText(text, maxChars)` (lines 413-416). -/
def splitText (text : List Char) (maxChars : Nat) : List (List Char) :=
  if text.length ≤ maxChars then [text]
  else splitRecursive maxChars SEPARATORS text

/-! ### Rejoining chunks with separators -/

/-- Rejoin parts with a single separator (the inverse of one split level). -/
def glue (sep : List Char) : List (List Char) → List Char
  | [] => []
  | [p] => p
  | p :: q :: ps => p ++ sep ++ glue sep (q :: ps)

/-- Rejoin where every part is preceded by the separator. -/
def tailGlue (sep : List Char) : List (List Char) → List Char
  | [] => []
  | p :: ps => sep ++ p ++ tailGlue sep ps

/-- A separator run: a concatenation of zero or more separator strings.
These are exactly the gaps the splitter can drop (separators adjacent to
empty split parts are never glued back into any chunk). -/
def SepRun (g : List Char) : Prop :=
  ∃ l : List (List Char), (∀ s ∈ l, s ∈ SEPARATORS) ∧ l.flatten = g

/-- `Reassembles t l` : the text `t` is the chunks of `l`, in order, with a
separator run interleaved before, between and after them. -/
inductive Reassembles : List Char → List (List Char) → Prop
  | nil {g} (hg : SepRun g) : Reassembles g []
  | cons {g t : List Char} {c : List Char} {cs} (hg : SepRun g)
      (ht : Reassembles t cs) : Reassembles (g ++ c ++ t) (c :: cs)

/-- The strict rejoin property claimed by the spec: the chunks interleaved
with exactly one separator (or nothing, at a hard-slice boundary) per
internal boundary give back the text — no leading or trailing loss. -/
def glueWith : List (List Char) → List (List Char) → List Char
  | [], _ => []
  | [c], _ => c
  | c :: cs, [] => c ++ glueWith cs []
  | c :: cs, s :: ss => c ++ s ++ glueWith cs ss

def StrictRejoin (text : List Char) (chunks : List (List Char)) : Prop :=
  ∃ seps : List (List Char), seps.length + 1 = chunks.length ∧
    (∀ s ∈ seps, s ∈ SEPARATORS ∨ s = []) ∧ glueWith chunks seps = text

theorem glue_cons_of_ne (sep : List Char) (p : List Char) {ps : List (List Char)}
    (h : ps ≠ []) : glue sep (p :: ps) = p ++ sep ++ glue sep ps := by
  cases ps with
  | nil => exact absurd rfl h
  | cons q ps => rfl

theorem glue_eq_tailGlue (sep : List Char) (p : List Char) (ps : List (List Char)) :
    glue sep (p :: ps) = p ++ tailGlue sep ps := by
  induction ps generalizing p with
  | nil => simp [glue, tailGlue]
  | cons q ps ih => simp [glue, tailGlue, ih q, List.append_assoc]

theorem sepRun_nil : SepRun [] := ⟨[], by simp, rfl⟩

theorem sepRun_of_mem {s : List Char} (h : s ∈ SEPARATORS) : SepRun s :=
  ⟨[s], by simpa using h, by simp⟩

theorem sepRun_append {a b : List Char} (ha : SepRun a) (hb : SepRun b) :
    SepRun (a ++ b) := by
  obtain ⟨l1, h1, rfl⟩ := ha
  obtain ⟨l2, h2, rfl⟩ := hb
  refine ⟨l1 ++ l2, ?_, by simp⟩
  intro s hs
  rcases List.mem_append.1 hs with h | h
  · exact h1 s h
  · exact h2 s h

theorem Reassembles.gap {g t : List Char} {l} (hg : SepRun g)
    (h : Reassembles t l) : Reassembles (g ++ t) l := by
  cases h with
  | nil hg2 => exact .nil (sepRun_append hg hg2)
  | @cons g2 t2 c cs hg2 ht =>
    have : g ++ (g2 ++ c ++ t2) = (g ++ g2) ++ c ++ t2 := by
      simp [List.append_assoc]
    rw [this]
    exact .cons (sepRun_append hg hg2) ht

theorem reassembles_single (c : List Char) : Reassembles c [c] := by
  have h := Reassembles.cons (g := []) (c := c) sepRun_nil (Reassembles.nil sepRun_nil)
  simpa using h

theorem Reassembles.append {t1 t2 : List Char} {l1 l2} (h1 : Reassembles t1 l1)
    (h2 : Reassembles t2 l2) : Reassembles (t1 ++ t2) (l1 ++ l2) := by
  induction h1 with
  | nil hg => simpa using h2.gap hg
  | @cons g t c cs hg ht ih =>
    have h3 := Reassembles.cons (g := g) (c := c) hg ih
    simpa [List.append_assoc] using h3

theorem reassembles_flatMap {T : List Char} {l : List (List Char)}
    {f : List Char → List (List Char)} (h : Reassembles T l)
    (hf : ∀ c ∈ l, Reassembles c (f c)) : Reassembles T (l.flatMap f) := by
  induction h with
  | nil hg => simpa using Reassembles.nil hg
  | @cons g t c cs hg ht ih =>
    have h1 : Reassembles c (f c) := hf c (by simp)
    have h2 : Reassembles t (cs.flatMap f) := ih fun x hx => hf x (by simp [hx])
    have h3 := (h1.append h2).gap hg
    simpa [List.append_assoc] using h3

theorem reassembles_of_flatten : ∀ {l : List (List Char)} {t : List Char},
    l.flatten = t → Reassembles t l := by
  intro l
  induction l with
  | nil =>
    intro t h
    subst h
    exact .nil sepRun_nil
  | cons c cs ih =>
    intro t h
    subst h
    have h1 := Reassembles.cons (g := []) (c := c) sepRun_nil (ih rfl)
    simpa using h1

/-! ### Properties of `findSep` and `splitOnSep` -/

theorem findSep_sound {sep : List Char} :
    ∀ {text pre post : List Char}, findSep sep text = some (pre, post) →
      text = pre ++ sep ++ post := by
  intro text
  induction text with
  | nil => intro pre post h; simp [findSep] at h
  | cons c cs ih =>
    intro pre post h
    rw [findSep] at h
    by_cases hp : sep.isPrefixOf (c :: cs)
    · rw [if_pos hp] at h
      obtain ⟨r, hr⟩ := List.isPrefixOf_iff_prefix.mp hp
      obtain ⟨h1, h2⟩ := Prod.mk.injEq .. ▸ Option.some.inj h
      subst h1
      subst h2
      rw [← hr, List.drop_left, List.nil_append]
    · rw [if_neg hp] at h
      cases hfs : findSep sep cs with
      | none => rw [hfs] at h; exact absurd h (by simp)
      | some pp =>
        obtain ⟨p, q⟩ := pp
        rw [hfs] at h
        obtain ⟨h1, h2⟩ := Prod.mk.injEq .. ▸ Option.some.inj h
        subst h1
        subst h2
        have h3 := ih hfs
        rw [h3]
        simp

theorem findSep_length_lt {sep text pre post : List Char} (hsep : sep ≠ [])
    (h : findSep sep text = some (pre, post)) : post.length < text.length := by
  have h1 := findSep_sound h
  have h2 : 0 < sep.length := List.length_pos.mpr hsep
  rw [h1]
  simp only [List.length_append]
  omega

theorem findSep_none_of_head_not_mem {s0 : Char} {s' text : List Char}
    (h : s0 ∉ text) : findSep (s0 :: s') text = none := by
  induction text with
  | nil => rfl
  | cons c cs ih =>
    rw [findSep]
    have hne : ¬ (s0 :: s').isPrefixOf (c :: cs) := by
      intro hp
      obtain ⟨r, hr⟩ := List.isPrefixOf_iff_prefix.mp hp
      have : s0 = c := by
        have := congrArg (fun l => l.head?) hr
        simpa using this
      exact h (this ▸ List.mem_cons_self _ _)
    rw [if_neg hne, ih fun hm => h (List.mem_cons_of_mem _ hm)]

theorem splitOnFuel_ne_nil (sep : List Char) (fuel : Nat) (text : List Char) :
    splitOnFuel sep fuel text ≠ [] := by
  cases fuel with
  | zero => simp [splitOnFuel]
  | succ n =>
    rw [splitOnFuel]
    cases findSep sep text with
    | none => simp
    | some pp => simp

theorem splitOnFuel_congr {sep : List Char} (hsep : sep ≠ []) :
    ∀ f g text, text.length ≤ f → text.length ≤ g →
      splitOnFuel sep f text = splitOnFuel sep g text := by
  intro f
  induction f with
  | zero =>
    intro g text hf hg
    have : text = [] := List.eq_nil_of_length_eq_zero (by omega)
    subst this
    cases g with
    | zero => rfl
    | succ m => simp [splitOnFuel, findSep]
  | succ n ih =>
    intro g text hf hg
    cases g with
    | zero =>
      have : text = [] := List.eq_nil_of_length_eq_zero (by omega)
      subst this
      simp [splitOnFuel, findSep]
    | succ m =>
      rw [splitOnFuel, splitOnFuel]
      cases hfs : findSep sep text with
      | none => rfl
      | some pp =>
        obtain ⟨pre, post⟩ := pp
        have hlt := findSep_length_lt hsep hfs
        dsimp only
        rw [ih m post (by omega) (by omega)]

theorem splitOnSep_eq_cons {sep text pre post : List Char} (hsep : sep ≠ [])
    (h : findSep sep text = some (pre, post)) :
    splitOnSep sep text = pre :: splitOnSep sep post := by
  unfold splitOnSep
  have hlt := findSep_length_lt hsep h
  have h1 : text.length = (text.length - 1) + 1 := by omega
  rw [h1, splitOnFuel, h]
  dsimp only
  rw [splitOnFuel_congr hsep (text.length - 1) post.length post (by omega) le_rfl]

theorem splitOnSep_eq_single {sep text : List Char}
    (h : findSep sep text = none) : splitOnSep sep text = [text] := by
  unfold splitOnSep
  cases hl : text.length with
  | zero => rfl
  | succ n => rw [splitOnFuel, h]

theorem splitOnSep_ne_nil (sep text : List Char) : splitOnSep sep text ≠ [] :=
  splitOnFuel_ne_nil sep text.length text

theorem glue_splitOnSep_aux {sep : List Char} (hsep : sep ≠ []) :
    ∀ n text, text.length ≤ n → glue sep (splitOnSep sep text) = text := by
  intro n
  induction n with
  | zero =>
    intro text h
    have : text = [] := List.eq_nil_of_length_eq_zero (by omega)
    subst this
    rfl
  | succ n ih =>
    intro text h
    cases hfs : findSep sep text with
    | none => rw [splitOnSep_eq_single hfs]; rfl
    | some pp =>
      obtain ⟨pre, post⟩ := pp
      rw [splitOnSep_eq_cons hsep hfs,
        glue_cons_of_ne _ _ (splitOnSep_ne_nil sep post),
        ih post (by have := findSep_length_lt hsep hfs; omega)]
      exact (findSep_sound hfs).symm

theorem glue_splitOnSep {sep : List Char} (hsep : sep ≠ []) (text : List Char) :
    glue sep (splitOnSep sep text) = text :=
  glue_splitOnSep_aux hsep text.length text le_rfl

/-! ### The greedy merge pass -/

theorem mergeLoop_nil_current (sep : List Char) (B : Nat) :
    mergeLoop sep B [] [] = [] := by
  simp [mergeLoop]

theorem mergeLoop_nil_push (sep : List Char) (B : Nat) {current : List Char}
    (h : current ≠ []) : mergeLoop sep B [] current = [current] := by
  rw [mergeLoop, if_neg h]

theorem mergeLoop_start (sep : List Char) (B : Nat) (p : List Char)
    (ps : List (List Char)) :
    mergeLoop sep B (p :: ps) [] = mergeLoop sep B ps p := by
  simp [mergeLoop]

theorem mergeLoop_cons_fit (sep : List Char) (B : Nat) (p : List Char)
    (ps : List (List Char)) {current : List Char} (h : current ≠ [])
    (hfit : (current ++ sep ++ p).length ≤ B) :
    mergeLoop sep B (p :: ps) current = mergeLoop sep B ps (current ++ sep ++ p) := by
  simp only [mergeLoop, if_neg h]
  rw [if_pos hfit]

theorem mergeLoop_cons_push (sep : List Char) (B : Nat) (p : List Char)
    (ps : List (List Char)) {current : List Char} (h : current ≠ [])
    (hbig : ¬ (current ++ sep ++ p).length ≤ B) :
    mergeLoop sep B (p :: ps) current = current :: mergeLoop sep B ps p := by
  simp only [mergeLoop, if_neg h]
  rw [if_neg hbig]

theorem mergeLoop_reassembles {sep : List Char} {B : Nat} (hs : SepRun sep) :
    ∀ parts current, Reassembles (current ++ tailGlue sep parts)
      (mergeLoop sep B parts current) := by
  intro parts
  induction parts with
  | nil =>
    intro current
    by_cases h : current = []
    · subst h
      rw [mergeLoop_nil_current]
      exact .nil sepRun_nil
    · rw [mergeLoop_nil_push sep B h]
      simpa [tailGlue] using reassembles_single current
  | cons p ps ih =>
    intro current
    by_cases h : current = []
    · subst h
      rw [mergeLoop_start]
      have h1 : Reassembles (sep ++ (p ++ tailGlue sep ps)) (mergeLoop sep B ps p) :=
        (ih p).gap hs
      simpa [tailGlue, List.append_assoc] using h1
    · by_cases hfit : (current ++ sep ++ p).length ≤ B
      · rw [mergeLoop_cons_fit sep B p ps h hfit]
        have h1 := ih (current ++ sep ++ p)
        simpa [tailGlue, List.append_assoc] using h1
      · rw [mergeLoop_cons_push sep B p ps h hfit]
        have h1 : Reassembles (sep ++ (p ++ tailGlue sep ps)) (mergeLoop sep B ps p) :=
          (ih p).gap hs
        have h2 := Reassembles.cons (g := []) (c := current) sepRun_nil h1
        simpa [tailGlue, List.append_assoc] using h2

theorem mergeParts_reassembles {sep : List Char} {B : Nat} (hs : SepRun sep)
    (p : List Char) (ps : List (List Char)) :
    Reassembles (glue sep (p :: ps)) (mergeParts sep B (p :: ps)) := by
  rw [glue_eq_tailGlue]
  unfold mergeParts
  rw [mergeLoop_start]
  exact mergeLoop_reassembles hs ps p

theorem mergeLoop_mem_ne_nil {sep : List Char} {B : Nat} :
    ∀ parts current c, c ∈ mergeLoop sep B parts current → c ≠ [] := by
  intro parts
  induction parts with
  | nil =>
    intro current c hc
    by_cases h : current = []
    · subst h
      rw [mergeLoop_nil_current] at hc
      simp at hc
    · rw [mergeLoop_nil_push sep B h] at hc
      simp at hc
      subst hc
      exact h
  | cons p ps ih =>
    intro current c hc
    by_cases h : current = []
    · subst h
      rw [mergeLoop_start] at hc
      exact ih p c hc
    · by_cases hfit : (current ++ sep ++ p).length ≤ B
      · rw [mergeLoop_cons_fit sep B p ps h hfit] at hc
        exact ih _ c hc
      · rw [mergeLoop_cons_push sep B p ps h hfit] at hc
        rcases List.mem_cons.mp hc with h3 | h3
        · subst h3
          exact h
        · exact ih p c h3

/-! ### The hard fixed-width slice -/

theorem hardSliceFuel_nil (maxC fuel : Nat) : hardSliceFuel maxC fuel [] = [] := by
  cases fuel <;> rfl

theorem hardSliceFuel_zero_cons (maxC : Nat) (c : Char) (cs : List Char) :
    hardSliceFuel maxC 0 (c :: cs) = [c :: cs] := rfl

theorem hardSliceFuel_succ_cons (maxC fuel : Nat) (c : Char) (cs : List Char) :
    hardSliceFuel maxC (fuel + 1) (c :: cs) =
      (c :: cs).take maxC :: hardSliceFuel maxC fuel ((c :: cs).drop maxC) := rfl

theorem hardSliceFuel_flatten {maxC : Nat} (h1 : 1 ≤ maxC) :
    ∀ fuel text, text.length ≤ fuel →
      (hardSliceFuel maxC fuel text).flatten = text := by
  intro fuel
  induction fuel with
  | zero =>
    intro text h
    have : text = [] := List.eq_nil_of_length_eq_zero (by omega)
    subst this
    rfl
  | succ n ih =>
    intro text h
    cases text with
    | nil => rfl
    | cons c cs =>
      rw [hardSliceFuel_succ_cons, List.flatten_cons,
        ih _ (by simp only [List.length_drop]; simp at h ⊢; omega)]
      exact List.take_append_drop _ _

theorem hardSliceFuel_length_le {maxC : Nat} (h1 : 1 ≤ maxC) :
    ∀ fuel text c, text.length ≤ fuel → c ∈ hardSliceFuel maxC fuel text →
      c.length ≤ maxC := by
  intro fuel
  induction fuel with
  | zero =>
    intro text c h hc
    have : text = [] := List.eq_nil_of_length_eq_zero (by omega)
    subst this
    rw [hardSliceFuel_nil] at hc
    simp at hc
  | succ n ih =>
    intro text c h hc
    cases text with
    | nil => rw [hardSliceFuel_nil] at hc; simp at hc
    | cons x xs =>
      rw [hardSliceFuel_succ_cons] at hc
      rcases List.mem_cons.mp hc with h3 | h3
      · subst h3
        simp [List.length_take]
      · exact ih _ c (by simp only [List.length_drop]; simp at h ⊢; omega) h3

theorem hardSliceFuel_mem_ne_nil {maxC : Nat} (h1 : 1 ≤ maxC) :
    ∀ fuel text c, c ∈ hardSliceFuel maxC fuel text → c ≠ [] := by
  intro fuel
  induction fuel with
  | zero =>
    intro text c hc
    cases text with
    | nil => rw [hardSliceFuel_nil] at hc; simp at hc
    | cons x xs =>
      rw [hardSliceFuel_zero_cons] at hc
      simp at hc
      subst hc
      simp
  | succ n ih =>
    intro text c hc
    cases text with
    | nil => rw [hardSliceFuel_nil] at hc; simp at hc
    | cons x xs =>
      rw [hardSliceFuel_succ_cons] at hc
      rcases List.mem_cons.mp hc with h3 | h3
      · subst h3
        obtain ⟨m, hm⟩ : ∃ m, maxC = m + 1 := ⟨maxC - 1, by omega⟩
        subst hm
        simp [List.take_cons]
      · exact ih _ c h3

/-! ### Main splitter invariants -/

theorem separators_ne_nil : ∀ s ∈ SEPARATORS, s ≠ [] := by decide

theorem splitRecursive_reassembles {B : Nat} (hB : 1 ≤ B) :
    ∀ seps, (∀ s ∈ seps, s ∈ SEPARATORS) →
      ∀ text, Reassembles text (splitRecursive B seps text) := by
  intro seps
  induction seps with
  | nil =>
    intro _ text
    rw [splitRecursive]
    split_ifs with h
    · exact reassembles_single text
    · exact reassembles_of_flatten (hardSliceFuel_flatten hB text.length text le_rfl)
  | cons sep rest ih =>
    intro hmem text
    have hsep_mem : sep ∈ SEPARATORS := hmem sep (by simp)
    have hrest : ∀ s ∈ rest, s ∈ SEPARATORS := fun s hs => hmem s (by simp [hs])
    have hsep_ne : sep ≠ [] := separators_ne_nil sep hsep_mem
    simp only [splitRecursive]
    split_ifs with h1 h2
    · exact reassembles_single text
    · exact ih hrest text
    · obtain ⟨p, ps, hp⟩ : ∃ p ps, splitOnSep sep text = p :: ps := by
        cases hsp : splitOnSep sep text with
        | nil => exact absurd hsp (splitOnSep_ne_nil sep text)
        | cons p ps => exact ⟨p, ps, rfl⟩
      have hglue := glue_splitOnSep hsep_ne text
      have hmr : Reassembles text (mergeParts sep B (splitOnSep sep text)) := by
        rw [hp] at hglue ⊢
        rw [← hglue]
        exact mergeParts_reassembles (sepRun_of_mem hsep_mem) p ps
      refine reassembles_flatMap hmr fun c _ => ?_
      split_ifs with h3
      · exact ih hrest c
      · exact reassembles_single c

theorem splitText_reassembles {text : List Char} {B : Nat} (hB : 1 ≤ B) :
    Reassembles text (splitText text B) := by
  rw [splitText]
  split_ifs with h
  · exact reassembles_single text
  · exact splitRecursive_reassembles hB SEPARATORS (fun s hs => hs) text

theorem splitRecursive_length_le {B : Nat} (hB : 1 ≤ B) :
    ∀ seps text c, c ∈ splitRecursive B seps text → c.length ≤ B := by
  intro seps
  induction seps with
  | nil =>
    intro text c hc
    rw [splitRecursive] at hc
    split_ifs at hc with h
    · simp at hc
      subst hc
      exact h
    · exact hardSliceFuel_length_le hB text.length text c le_rfl hc
  | cons sep rest ih =>
    intro text c hc
    simp only [splitRecursive] at hc
    split_ifs at hc with h1 h2
    · simp at hc
      subst hc
      exact h1
    · exact ih text c hc
    · rw [List.mem_flatMap] at hc
      obtain ⟨chunk, _, hc⟩ := hc
      by_cases h3 : B < chunk.length
      · rw [if_pos h3] at hc
        exact ih chunk c hc
      · rw [if_neg h3] at hc
        simp at hc
        subst hc
        omega

theorem splitText_length_le {text : List Char} {B : Nat} (hB : 1 ≤ B) :
    ∀ c ∈ splitText text B, c.length ≤ B := by
  intro c hc
  rw [splitText] at hc
  split_ifs at hc with h
  · simp at hc
    subst hc
    exact h
  · exact splitRecursive_length_le hB SEPARATORS text c hc

theorem splitRecursive_mem_ne_nil {B : Nat} (hB : 1 ≤ B) :
    ∀ seps text, text ≠ [] → ∀ c ∈ splitRecursive B seps text, c ≠ [] := by
  intro seps
  induction seps with
  | nil =>
    intro text htext c hc
    rw [splitRecursive] at hc
    split_ifs at hc with h
    · simp at hc
      subst hc
      exact htext
    · exact hardSliceFuel_mem_ne_nil hB text.length text c hc
  | cons sep rest ih =>
    intro text htext c hc
    simp only [splitRecursive] at hc
    split_ifs at hc with h1 h2
    · simp at hc
      subst hc
      exact htext
    · exact ih text htext c hc
    · rw [List.mem_flatMap] at hc
      obtain ⟨chunk, hchunk, hc⟩ := hc
      have hcne : chunk ≠ [] := mergeLoop_mem_ne_nil _ _ chunk hchunk
      by_cases h3 : B < chunk.length
      · rw [if_pos h3] at hc
        exact ih chunk hcne c hc
      · rw [if_neg h3] at hc
        simp at hc
        subst hc
        exact hcne

theorem splitText_mem_ne_nil {text : List Char} {B : Nat} (hB : 1 ≤ B)
    (htext : text ≠ []) : ∀ c ∈ splitText text B, c ≠ [] := by
  intro c hc
  rw [splitText] at hc
  split_ifs at hc with h
  · simp at hc
    subst hc
    exact htext
  · exact splitRecursive_mem_ne_nil hB SEPARATORS text htext c hc

theorem sepRun_of_splitText_nil {text : List Char} {B : Nat} (hB : 1 ≤ B)
    (h : splitText text B = []) : SepRun text := by
  have h1 := @splitText_reassembles text B hB
  rw [h] at h1
  cases h1 with
  | nil hg => exact hg

/-! ### Orchestrator embedding (src/providers/chrome-summarizer.js)

The backend is an oracle: for each chunk text it determines the deltas the
chunk's stream emits (in order) and whether the attempt then completes or
fails with an error of some kind.  `isContextError` / the `AbortError` name
check / `formatErrorMessage` only ever inspect the classification of an
error, so errors are modelled by their kind. -/

/-- Error kinds distinguished by the source's classification helpers. -/
inductive ErrKind
  | overflow
  | abort
  | timeout
  | other
deriving DecidableEq

/-- Result of one `runner.run` stream: the deltas read (each forwarded to
`onUpdate` as it is read), then either completion or an error. -/
structure Attempt where
  deltas : List (List Char)
  err : Option ErrKind

abbrev Oracle := List Char → Attempt

/-- Outcome of a (sub)computation of `call`: all deltas forwarded to
`onUpdate`, the number of backend chunk calls made, and the result. -/
inductive Res
  | ok (content : List Char)
  | err (e : ErrKind)
deriving DecidableEq

structure Out where
  deltas : List (List Char)
  calls : Nat
  result : Res
deriving DecidableEq

/-- `_streamChunk` (lines 235-258): reads the stream, forwarding each value
to `onUpdate` and accumulating it into `chunkText`; returns the accumulated
text, or fails after having emitted the deltas read so far. -/
def streamChunk (oracle : Oracle) (chunk : List Char) : Out :=
  let a := oracle chunk
  match a.err with
  | none => ⟨a.deltas, 1, Res.ok a.deltas.flatten⟩
  | some e => ⟨a.deltas, 1, Res.err e⟩

/-- The shared shape of the sub-chunk loop of `_processChunkWithRetry`
(lines 283-295) and the chunk loop of `call` (lines 364-379): before each
element the abort flag is checked (`if (signal?.aborted) throw AbortError`),
the element is processed by `f`, its text is appended to the running
aggregate, and an error stops the loop (deltas already emitted are kept,
the partial aggregate is discarded with the thrown error). -/
def goList (f : List Char → Out) (aborted : Bool) : List (List Char) → Out
  | [] => ⟨[], 0, Res.ok []⟩
  | c :: cs =>
    if aborted then ⟨[], 0, Res.err ErrKind.abort⟩
    else
      match f c with
      | ⟨ds, n, Res.err e⟩ => ⟨ds, n, Res.err e⟩
      | ⟨ds, n, Res.ok t⟩ =>
        match goList f aborted cs with
        | ⟨ds2, n2, Res.ok t2⟩ => ⟨ds ++ ds2, n + n2, Res.ok (t ++ t2)⟩
        | ⟨ds2, n2, Res.err e⟩ => ⟨ds ++ ds2, n + n2, Res.err e⟩

/-- `const MAX_RETRY_DEPTH = 2` (line 183). -/
def MAX_RETRY_DEPTH : Nat := 2

/-- `_processChunkWithRetry` (lines 271-301), with the remaining retry
allowance `MAX_RETRY_DEPTH - retryDepth` as the recursion fuel: at
`remaining = 0` (i.e. `retryDepth ≥ MAX_RETRY_DEPTH`) every error is
rethrown; otherwise an overflow-classified error triggers a re-split of the
chunk at `Math.floor(maxChunkChars / 2)` and the sub-chunks are processed by
the same logic at `retryDepth + 1`; any other error is rethrown unchanged. -/
def processR (oracle : Oracle) (maxChunkChars : Nat) (aborted : Bool) :
    Nat → List Char → Out
  | 0, chunk => streamChunk oracle chunk
  | remaining + 1, chunk =>
    match streamChunk oracle chunk with
    | ⟨ds, n, Res.ok t⟩ => ⟨ds, n, Res.ok t⟩
    | ⟨ds, n, Res.err e⟩ =>
      if e = ErrKind.overflow then
        let subs := splitText chunk (maxChunkChars / 2)
        let so := goList (processR oracle maxChunkChars aborted remaining) aborted subs
        ⟨ds ++ so.deltas, n + so.calls, so.result⟩
      else ⟨ds, n, Res.err e⟩

/-- `_processChunkWithRetry(chunk, maxChunkChars, …, retryDepth)`. -/
def processChunkWithRetry (oracle : Oracle) (maxChunkChars : Nat)
    (aborted : Bool) (retryDepth : Nat) (chunk : List Char) : Out :=
  processR oracle maxChunkChars aborted (MAX_RETRY_DEPTH - retryDepth) chunk

/-! ### Effective chunk budget (call, lines 335-355; constants lines 174-177
and src/shared/constants.js line 9) -/

/-- `export const CHARS_PER_TOKEN = 3`. -/
def CHARS_PER_TOKEN : Nat := 3

/-- `const RESPONSE_BUFFER_TOKENS = 1024`. -/
def RESPONSE_BUFFER_TOKENS : Nat := 1024

/-- `const MIN_CONTENT_TOKENS = 256`. -/
def MIN_CONTENT_TOKENS : Nat := 256

/-- JavaScript `v || d` for a possibly-absent number: `none` (undefined) and
`some 0` (zero, falsy) both fall back to the default. -/
def orDefault (v : Option Int) (d : Int) : Int :=
  match v with
  | some n => if n = 0 then d else n
  | none => d

/-- The context-size priority chain (lines 336-345): user setting if truthy,
else the auto-detected value if truthy, else 4096.  `detected` stands for
the value `_detectContextLength` resolved with (`none` when it returned
`null`); it is only consulted when the setting is falsy, as in the source. -/
def effectiveCtx (contextLength detected : Option Int) : Int :=
  match contextLength with
  | some n => if n = 0 then orDefault detected 4096 else n
  | none => orDefault detected 4096

/-- Lines 346-354: clamp the context to at least 512 tokens, estimate the
prompt's tokens with `Math.ceil(prompt.length / CHARS_PER_TOKEN)`, reserve
for prompt and response, and keep at least `MIN_CONTENT_TOKENS` of content;
the budget in characters is the token budget times `CHARS_PER_TOKEN`. -/
def computeMaxChunkChars (contextLength detected : Option Int)
    (promptLen : Nat) : Int :=
  let ctx := max 512 (effectiveCtx contextLength detected)
  let promptTokensEst : Int := ((promptLen + (CHARS_PER_TOKEN - 1)) / CHARS_PER_TOKEN : Nat)
  let reserveTokens := min (ctx - (MIN_CONTENT_TOKENS : Int))
    (promptTokensEst + (RESPONSE_BUFFER_TOKENS : Int))
  let maxChunkTokens := max (MIN_CONTENT_TOKENS : Int) (ctx - reserveTokens)
  maxChunkTokens * (CHARS_PER_TOKEN : Int)

/-- `OpenAIAgentsProvider.call` (lines 303-388), from the budget computation
on: split the text with the effective budget, then run the chunk loop with
`_processChunkWithRetry` at `retryDepth = 0` (remaining = `MAX_RETRY_DEPTH`),
checking the abort flag before every chunk.  The catch-wrapper (lines
380-385) rethrows an `AbortError` unchanged and otherwise rethrows an error
of the same classification with a normalized message; since errors are
modelled by kind, the result passes through unchanged. -/
def call (oracle : Oracle) (aborted : Bool) (text : List Char)
    (contextLength detected : Option Int) (promptLen : Nat) : Out :=
  let maxChunkChars := (computeMaxChunkChars contextLength detected promptLen).toNat
  let chunks := splitText text maxChunkChars
  goList (processR oracle maxChunkChars aborted MAX_RETRY_DEPTH) aborted chunks

/-! ### Orchestrator lemmas -/

theorem goList_nil (f : List Char → Out) (ab : Bool) :
    goList f ab [] = ⟨[], 0, Res.ok []⟩ := rfl

theorem goList_cons_abort (f : List Char → Out) (c : List Char)
    (cs : List (List Char)) : goList f true (c :: cs) = ⟨[], 0, Res.err ErrKind.abort⟩ :=
  rfl

theorem goList_cons_err {f : List Char → Out} {c : List Char} {ds n e}
    (h : f c = ⟨ds, n, Res.err e⟩) (cs : List (List Char)) :
    goList f false (c :: cs) = ⟨ds, n, Res.err e⟩ := by
  rw [goList, if_neg (by simp), h]

theorem goList_cons_ok_ok {f : List Char → Out} {c : List Char} {ds n t}
    {cs : List (List Char)} {ds2 n2 t2} (h : f c = ⟨ds, n, Res.ok t⟩)
    (h2 : goList f false cs = ⟨ds2, n2, Res.ok t2⟩) :
    goList f false (c :: cs) = ⟨ds ++ ds2, n + n2, Res.ok (t ++ t2)⟩ := by
  rw [goList, if_neg (by simp), h]
  dsimp only
  rw [h2]

theorem goList_cons_ok_err {f : List Char → Out} {c : List Char} {ds n t}
    {cs : List (List Char)} {ds2 n2 e} (h : f c = ⟨ds, n, Res.ok t⟩)
    (h2 : goList f false cs = ⟨ds2, n2, Res.err e⟩) :
    goList f false (c :: cs) = ⟨ds ++ ds2, n + n2, Res.err e⟩ := by
  rw [goList, if_neg (by simp), h]
  dsimp only
  rw [h2]

theorem processR_zero (oracle : Oracle) (maxC : Nat) (ab : Bool) (c : List Char) :
    processR oracle maxC ab 0 c = streamChunk oracle c := rfl

theorem processR_succ_ok {oracle : Oracle} {c : List Char} {ds n t}
    (maxC : Nat) (ab : Bool) (r : Nat) (h : streamChunk oracle c = ⟨ds, n, Res.ok t⟩) :
    processR oracle maxC ab (r + 1) c = ⟨ds, n, Res.ok t⟩ := by
  rw [processR, h]

theorem processR_succ_overflow {oracle : Oracle} {c : List Char} {ds n}
    (maxC : Nat) (ab : Bool) (r : Nat)
    (h : streamChunk oracle c = ⟨ds, n, Res.err ErrKind.overflow⟩) :
    processR oracle maxC ab (r + 1) c =
      ⟨ds ++ (goList (processR oracle maxC ab r) ab (splitText c (maxC / 2))).deltas,
        n + (goList (processR oracle maxC ab r) ab (splitText c (maxC / 2))).calls,
        (goList (processR oracle maxC ab r) ab (splitText c (maxC / 2))).result⟩ := by
  rw [processR, h]
  dsimp only
  rw [if_pos rfl]

theorem processR_succ_err {oracle : Oracle} {c : List Char} {ds n e}
    (maxC : Nat) (ab : Bool) (r : Nat) (h : streamChunk oracle c = ⟨ds, n, Res.err e⟩)
    (he : e ≠ ErrKind.overflow) :
    processR oracle maxC ab (r + 1) c = ⟨ds, n, Res.err e⟩ := by
  rw [processR, h]
  dsimp only
  rw [if_neg he]

/-- A backend on which every failed attempt emitted no deltas before
failing (e.g. the backend rejects an oversized input before producing any
output). -/
def CleanFailures (oracle : Oracle) : Prop :=
  ∀ c, (oracle c).err ≠ none → (oracle c).deltas = []

/-- The streaming invariant an `Out` can satisfy: if it succeeded, the
concatenation of its deltas is exactly its content. -/
def DeltasMatch (o : Out) : Prop :=
  ∀ t, o.result = Res.ok t → o.deltas.flatten = t

theorem streamChunk_deltasMatch (oracle : Oracle) (c : List Char) :
    DeltasMatch (streamChunk oracle c) := by
  intro t h
  simp only [streamChunk] at h ⊢
  cases ha : oracle c with
  | mk ds err =>
    rw [ha] at h
    cases err with
    | none =>
      dsimp only at h ⊢
      simp only [Res.ok.injEq] at h
      rw [h]
    | some e =>
      dsimp only at h
      simp at h

theorem streamChunk_err_deltas {oracle : Oracle} {c : List Char} {ds n e}
    (hcl : CleanFailures oracle) (h : streamChunk oracle c = ⟨ds, n, Res.err e⟩) :
    ds = [] := by
  have hd := congrArg Out.deltas h
  have hr := congrArg Out.result h
  simp only [streamChunk] at hd hr
  cases ha : oracle c with
  | mk ds2 err =>
    rw [ha] at hd hr
    cases err with
    | none =>
      dsimp only at hr
      simp at hr
    | some e2 =>
      dsimp only at hd
      rw [← hd]
      have h2 := hcl c
      rw [ha] at h2
      simpa using h2

theorem goList_deltasMatch {f : List Char → Out} {ab : Bool}
    (hf : ∀ c, DeltasMatch (f c)) : ∀ l, DeltasMatch (goList f ab l) := by
  intro l
  induction l with
  | nil => intro t h; cases h; rfl
  | cons c cs ih =>
    intro t h
    cases ab with
    | true => rw [goList_cons_abort] at h; cases h
    | false =>
      cases hfc : f c with
      | mk ds n res =>
        cases res with
        | err e => rw [goList_cons_err hfc] at h; cases h
        | ok tc =>
          cases hgl : goList f false cs with
          | mk ds2 n2 res2 =>
            cases res2 with
            | err e =>
              rw [goList_cons_ok_err hfc hgl] at h
              dsimp only at h
              simp at h
            | ok t2 =>
              rw [goList_cons_ok_ok hfc hgl] at h ⊢
              dsimp only at h ⊢
              simp only [Res.ok.injEq] at h
              subst h
              have h1 : ds.flatten = tc := by
                have h3 := hf c tc
                rw [hfc] at h3
                exact h3 rfl
              have h2 : ds2.flatten = t2 := by
                have h3 := ih t2
                rw [hgl] at h3
                exact h3 rfl
              simp [List.flatten_append, h1, h2]

theorem processR_deltasMatch {oracle : Oracle} (hcl : CleanFailures oracle)
    (maxC : Nat) (ab : Bool) : ∀ r c, DeltasMatch (processR oracle maxC ab r c) := by
  intro r
  induction r with
  | zero => intro c; rw [processR_zero]; exact streamChunk_deltasMatch oracle c
  | succ n ih =>
    intro c
    cases hsc : streamChunk oracle c with
    | mk ds m res =>
      cases res with
      | ok t =>
        rw [processR_succ_ok maxC ab n hsc]
        intro t2 h2
        dsimp only at h2
        simp only [Res.ok.injEq] at h2
        subst h2
        have h3 := streamChunk_deltasMatch oracle c
        rw [hsc] at h3
        exact h3 t rfl
      | err e =>
        by_cases he : e = ErrKind.overflow
        · subst he
          rw [processR_succ_overflow maxC ab n hsc]
          intro t2 h2
          dsimp only at h2
          have hds : ds = [] := streamChunk_err_deltas hcl hsc
          subst hds
          have h3 := goList_deltasMatch ih (splitText c (maxC / 2)) t2 h2
          simpa using h3
        · rw [processR_succ_err maxC ab n hsc he]
          intro t2 h2
          dsimp only at h2
          simp at h2

/-- If every failed attempt emitted nothing, a successful `call` returns
exactly the concatenation of all deltas it emitted. -/
theorem call_deltasMatch {oracle : Oracle} (hcl : CleanFailures oracle)
    (ab : Bool) (text : List Char) (cl det : Option Int) (pl : Nat) :
    DeltasMatch (call oracle ab text cl det pl) := by
  unfold call
  exact goList_deltasMatch (processR_deltasMatch hcl _ ab MAX_RETRY_DEPTH) _

/-- With the abort flag already set, `call` makes no backend call and emits
no delta; it fails with the cancellation kind unless the splitter returned
no chunks at all, in which case the loop body never runs and `call`
resolves with empty content. -/
theorem call_aborted_eq (oracle : Oracle) (text : List Char)
    (cl det : Option Int) (pl : Nat) :
    call oracle true text cl det pl =
      ⟨[], 0,
        if splitText text (computeMaxChunkChars cl det pl).toNat = [] then Res.ok []
        else Res.err ErrKind.abort⟩ := by
  unfold call
  dsimp only
  cases hc : splitText text (computeMaxChunkChars cl det pl).toNat with
  | nil => rw [goList_nil, if_pos rfl]
  | cons c cs => rw [goList_cons_abort, if_neg (by simp)]

/-- A mock backend that always fails with an overflow-classified error. -/
def constOverflowOracle : Oracle := fun _ => ⟨[], some ErrKind.overflow⟩

/-! ### Evaluating the splitter on block-structured texts

Texts of the shape `aa…a bb…b … cc…c` (blocks of non-space characters glued
by single spaces) are what the 10,000-character scenario uses; the splitter
is evaluated on them through the following lemmas rather than by kernel
computation. -/

theorem isPrefixOf_cons_head {s0 x : Char} {s2 l : List Char}
    (h : (s0 :: s2).isPrefixOf (x :: l) = true) : s0 = x := by
  obtain ⟨r, hr⟩ := List.isPrefixOf_iff_prefix.mp h
  have h2 := congrArg List.head? hr
  simpa using h2

theorem findSep_cons_none {sep : List Char} {c : Char} {cs : List Char}
    (h1 : ¬ sep.isPrefixOf (c :: cs) = true) (h2 : findSep sep cs = none) :
    findSep sep (c :: cs) = none := by
  rw [findSep, if_neg h1, h2]

theorem findSep_append_map {s0 : Char} {s2 : List Char} :
    ∀ {xs ys : List Char}, s0 ∉ xs →
      findSep (s0 :: s2) (xs ++ ys) =
        (findSep (s0 :: s2) ys).map fun pp => (xs ++ pp.1, pp.2) := by
  intro xs
  induction xs with
  | nil =>
    intro ys _
    rw [List.nil_append]
    cases hys : findSep (s0 :: s2) ys with
    | none => rfl
    | some pp =>
      obtain ⟨a, b⟩ := pp
      rfl
  | cons x xs ih =>
    intro ys h
    have hx : s0 ≠ x := fun he => h (he ▸ List.mem_cons_self x xs)
    have hpre : ¬ ((s0 :: s2).isPrefixOf (x :: (xs ++ ys)) = true) := fun hp =>
      hx (isPrefixOf_cons_head hp)
    have htail : s0 ∉ xs := fun hm => h (List.mem_cons_of_mem _ hm)
    rw [List.cons_append, findSep, if_neg hpre, ih htail]
    cases findSep (s0 :: s2) ys with
    | none => rfl
    | some pp =>
      obtain ⟨a, b⟩ := pp
      rfl

theorem findSep_append_none {s0 : Char} {s2 xs ys : List Char} (hx : s0 ∉ xs)
    (hy : findSep (s0 :: s2) ys = none) : findSep (s0 :: s2) (xs ++ ys) = none := by
  rw [findSep_append_map hx, hy]
  rfl

theorem findSep_space_block {c : Char} (hc : ¬ (' ' = c)) (n : Nat)
    (rest : List Char) :
    findSep [' '] (List.replicate n c ++ ' ' :: rest) =
      some (List.replicate n c, rest) := by
  have hmem : ' ' ∉ List.replicate n c := fun h => hc (List.mem_replicate.mp h).2
  rw [findSep_append_map hmem]
  have hstep : findSep [' '] (' ' :: rest) = some ([], rest) := by
    have hp : ([' '] : List Char).isPrefixOf (' ' :: rest) = true :=
      List.isPrefixOf_iff_prefix.mpr ⟨rest, rfl⟩
    rw [findSep, if_pos hp]
    rfl
  rw [hstep]
  simp

theorem findSep_space_rep_none {c : Char} (hc : ¬ (' ' = c)) (n : Nat) :
    findSep [' '] (List.replicate n c) = none :=
  findSep_none_of_head_not_mem fun h => hc (List.mem_replicate.mp h).2

theorem space_ne_nil : ([' '] : List Char) ≠ [] := by simp

theorem splitOnSep_space_block {c : Char} (hc : ¬ (' ' = c)) (n : Nat)
    (rest : List Char) :
    splitOnSep [' '] (List.replicate n c ++ ' ' :: rest) =
      List.replicate n c :: splitOnSep [' '] rest :=
  splitOnSep_eq_cons space_ne_nil (findSep_space_block hc n rest)

theorem splitOnSep_space_rep {c : Char} (hc : ¬ (' ' = c)) (n : Nat) :
    splitOnSep [' '] (List.replicate n c) = [List.replicate n c] :=
  splitOnSep_eq_single (findSep_space_rep_none hc n)

theorem findSep_dspace_block {c : Char} (hc : ¬ (' ' = c)) (n : Nat)
    {rest : List Char} (hrest : findSep [' ', ' '] rest = none)
    (hhead : rest.head? ≠ some ' ') :
    findSep [' ', ' '] (List.replicate n c ++ ' ' :: rest) = none := by
  have hmem : ' ' ∉ List.replicate n c := fun h => hc (List.mem_replicate.mp h).2
  apply findSep_append_none hmem
  apply findSep_cons_none _ hrest
  intro hp
  obtain ⟨r, hr⟩ := List.isPrefixOf_iff_prefix.mp hp
  have h5 : ' ' :: r = rest := by
    have := congrArg List.tail hr
    simpa using this
  exact hhead (by rw [← h5]; rfl)

theorem head?_replicate_succ (c : Char) (n : Nat) :
    (List.replicate (n + 1) c).head? = some c := by
  rw [List.replicate_succ]
  rfl

theorem head?_replicate_append (c : Char) (n : Nat) (l : List Char) :
    (List.replicate (n + 1) c ++ l).head? = some c := by
  rw [List.replicate_succ, List.cons_append]
  rfl

theorem replicate_char_ne_nil (c : Char) (n : Nat) (h : n ≠ 0) :
    List.replicate n c ≠ [] := by
  intro h2
  have h3 := congrArg List.length h2
  simp at h3
  exact h h3

/-- Unfolding of `_splitRecursive` at a separator level. -/
theorem splitRecursive_cons_eq (B : Nat) (sep : List Char)
    (rest : List (List Char)) (text : List Char) :
    splitRecursive B (sep :: rest) text =
      if text.length ≤ B then [text]
      else if (splitOnSep sep text).length ≤ 1 then splitRecursive B rest text
      else (mergeParts sep B (splitOnSep sep text)).flatMap fun chunk =>
        if B < chunk.length then splitRecursive B rest chunk else [chunk] := rfl

theorem splitRecursive_nil_eq (B : Nat) (text : List Char) :
    splitRecursive B [] text =
      if text.length ≤ B then [text] else hardSlice B text := rfl

/-- Skip a separator level that does not occur in the text. -/
theorem splitRecursive_skip {B : Nat} {sep text : List Char}
    (rest : List (List Char)) (hlen : ¬ text.length ≤ B)
    (hnone : findSep sep text = none) :
    splitRecursive B (sep :: rest) text = splitRecursive B rest text := by
  rw [splitRecursive_cons_eq, if_neg hlen, splitOnSep_eq_single hnone,
    if_pos (by simp)]

theorem not_mem_append_char {x : Char} {l1 l2 : List Char} (h1 : x ∉ l1)
    (h2 : x ∉ l2) : x ∉ l1 ++ l2 := by
  intro hm
  rcases List.mem_append.mp hm with h | h
  · exact h1 h
  · exact h2 h

theorem not_mem_cons_char {x c : Char} {l : List Char} (h1 : x ≠ c)
    (h2 : x ∉ l) : x ∉ c :: l := by
  intro hm
  rcases List.mem_cons.mp hm with h | h
  · exact h1 h
  · exact h2 h

theorem not_mem_rep_char {x c : Char} (h : x ≠ c) (n : Nat) :
    x ∉ List.replicate n c := fun hm => h (List.mem_replicate.mp hm).2

/-! ### The 10,000-character scenario (spec §8, scenario line) -/

/-- A 4,000-character word. -/
def c8A : List Char := List.replicate 4000 'a'

/-- A 1,998-character word. -/
def c8A2 : List Char := List.replicate 1998 'a'

/-- 10,000 characters: two 4,000-character words then a 1,998-character
word, separated by single spaces — greedy merging packs them into exactly
three chunks. -/
def c8Text : List Char := c8A ++ ' ' :: (c8A ++ ' ' :: c8A2)

/-- A 2,500-character word. -/
def c8B : List Char := List.replicate 2500 'a'

/-- A 2,497-character word. -/
def c8B2 : List Char := List.replicate 2497 'a'

/-- 10,000 characters: three 2,500-character words then a 2,497-character
word, separated by single spaces — no pair of adjacent words fits in 4,000
characters, so greedy merging yields four chunks. -/
def c8CexText : List Char := c8B ++ ' ' :: (c8B ++ ' ' :: (c8B ++ ' ' :: c8B2))

/-- "No natural separators beyond spaces, and spaces are single": the text
contains no line break, no sentence-terminal period-space, and no run of
two consecutive spaces. -/
def OnlySingleSpaceSeps (text : List Char) : Prop :=
  findSep ['\n'] text = none ∧ findSep ['.', ' '] text = none ∧
    findSep [' ', ' '] text = none

theorem c8A_length : c8A.length = 4000 := by
  show (List.replicate 4000 'a').length = 4000
  rw [List.length_replicate]

theorem c8A2_length : c8A2.length = 1998 := by
  show (List.replicate 1998 'a').length = 1998
  rw [List.length_replicate]

theorem c8B_length : c8B.length = 2500 := by
  show (List.replicate 2500 'a').length = 2500
  rw [List.length_replicate]

theorem c8B2_length : c8B2.length = 2497 := by
  show (List.replicate 2497 'a').length = 2497
  rw [List.length_replicate]

theorem c8Text_length : c8Text.length = 10000 := by
  show (c8A ++ ' ' :: (c8A ++ ' ' :: c8A2)).length = 10000
  rw [List.length_append, List.length_cons, List.length_append, List.length_cons,
    c8A_length, c8A2_length]

theorem c8CexText_length : c8CexText.length = 10000 := by
  show (c8B ++ ' ' :: (c8B ++ ' ' :: (c8B ++ ' ' :: c8B2))).length = 10000
  rw [List.length_append, List.length_cons, List.length_append, List.length_cons,
    List.length_append, List.length_cons, c8B_length, c8B2_length]

theorem nl_not_mem_c8Text : '\n' ∉ c8Text := by
  show '\n' ∉ c8A ++ ' ' :: (c8A ++ ' ' :: c8A2)
  refine not_mem_append_char ?ha (not_mem_cons_char (by decide)
    (not_mem_append_char ?hb (not_mem_cons_char (by decide) ?hc)))
  · exact not_mem_rep_char (by decide) 4000
  · exact not_mem_rep_char (by decide) 4000
  · exact not_mem_rep_char (by decide) 1998

theorem dot_not_mem_c8Text : '.' ∉ c8Text := by
  show '.' ∉ c8A ++ ' ' :: (c8A ++ ' ' :: c8A2)
  refine not_mem_append_char ?ha (not_mem_cons_char (by decide)
    (not_mem_append_char ?hb (not_mem_cons_char (by decide) ?hc)))
  · exact not_mem_rep_char (by decide) 4000
  · exact not_mem_rep_char (by decide) 4000
  · exact not_mem_rep_char (by decide) 1998

theorem nl_not_mem_c8CexText : '\n' ∉ c8CexText := by
  show '\n' ∉ c8B ++ ' ' :: (c8B ++ ' ' :: (c8B ++ ' ' :: c8B2))
  refine not_mem_append_char (not_mem_rep_char (by decide) 2500)
    (not_mem_cons_char (by decide)
      (not_mem_append_char (not_mem_rep_char (by decide) 2500)
        (not_mem_cons_char (by decide)
          (not_mem_append_char (not_mem_rep_char (by decide) 2500)
            (not_mem_cons_char (by decide) (not_mem_rep_char (by decide) 2497))))))

theorem dot_not_mem_c8CexText : '.' ∉ c8CexText := by
  show '.' ∉ c8B ++ ' ' :: (c8B ++ ' ' :: (c8B ++ ' ' :: c8B2))
  refine not_mem_append_char (not_mem_rep_char (by decide) 2500)
    (not_mem_cons_char (by decide)
      (not_mem_append_char (not_mem_rep_char (by decide) 2500)
        (not_mem_cons_char (by decide)
          (not_mem_append_char (not_mem_rep_char (by decide) 2500)
            (not_mem_cons_char (by decide) (not_mem_rep_char (by decide) 2497))))))

theorem splitOnSep_c8Text :
    splitOnSep [' '] c8Text = [c8A, c8A, c8A2] := by
  show splitOnSep [' ']
      (List.replicate 4000 'a' ++ ' ' :: (List.replicate 4000 'a' ++ ' ' :: List.replicate 1998 'a')) =
    [List.replicate 4000 'a', List.replicate 4000 'a', List.replicate 1998 'a']
  rw [splitOnSep_space_block (by decide) 4000, splitOnSep_space_block (by decide) 4000,
    splitOnSep_space_rep (by decide) 1998]

theorem splitOnSep_c8CexText :
    splitOnSep [' '] c8CexText = [c8B, c8B, c8B, c8B2] := by
  show splitOnSep [' ']
      (List.replicate 2500 'a' ++ ' ' :: (List.replicate 2500 'a' ++ ' ' ::
        (List.replicate 2500 'a' ++ ' ' :: List.replicate 2497 'a'))) =
    [List.replicate 2500 'a', List.replicate 2500 'a', List.replicate 2500 'a',
      List.replicate 2497 'a']
  rw [splitOnSep_space_block (by decide) 2500, splitOnSep_space_block (by decide) 2500,
    splitOnSep_space_block (by decide) 2500, splitOnSep_space_rep (by decide) 2497]

theorem c8A_ne_nil : c8A ≠ [] := replicate_char_ne_nil 'a' 4000 (by omega)

theorem c8A2_ne_nil : c8A2 ≠ [] := replicate_char_ne_nil 'a' 1998 (by omega)

theorem c8B_ne_nil : c8B ≠ [] := replicate_char_ne_nil 'a' 2500 (by omega)

theorem c8B2_ne_nil : c8B2 ≠ [] := replicate_char_ne_nil 'a' 2497 (by omega)

theorem mergeParts_c8Text :
    mergeParts [' '] 4000 [c8A, c8A, c8A2] = [c8A, c8A, c8A2] := by
  unfold mergeParts
  rw [mergeLoop_start]
  rw [mergeLoop_cons_push [' '] 4000 c8A [c8A2] c8A_ne_nil
    (by rw [List.length_append, List.length_append, c8A_length]; intro h; simp at h)]
  rw [mergeLoop_cons_push [' '] 4000 c8A2 [] c8A_ne_nil
    (by rw [List.length_append, List.length_append, c8A_length, c8A2_length]
        intro h; simp at h)]
  rw [mergeLoop_nil_push [' '] 4000 c8A2_ne_nil]

theorem mergeParts_c8CexText :
    mergeParts [' '] 4000 [c8B, c8B, c8B, c8B2] = [c8B, c8B, c8B, c8B2] := by
  unfold mergeParts
  rw [mergeLoop_start]
  rw [mergeLoop_cons_push [' '] 4000 c8B [c8B, c8B2] c8B_ne_nil
    (by rw [List.length_append, List.length_append, c8B_length]; intro h; simp at h)]
  rw [mergeLoop_cons_push [' '] 4000 c8B [c8B2] c8B_ne_nil
    (by rw [List.length_append, List.length_append, c8B_length]; intro h; simp at h)]
  rw [mergeLoop_cons_push [' '] 4000 c8B2 [] c8B_ne_nil
    (by rw [List.length_append, List.length_append, c8B_length, c8B2_length]
        intro h; simp at h)]
  rw [mergeLoop_nil_push [' '] 4000 c8B2_ne_nil]

theorem splitText_c8Text : splitText c8Text 4000 = [c8A, c8A, c8A2] := by
  have hlen4 : ¬ c8Text.length ≤ 4000 := by rw [c8Text_length]; omega
  rw [splitText, if_neg hlen4]
  unfold SEPARATORS
  rw [splitRecursive_skip _ hlen4 (findSep_none_of_head_not_mem nl_not_mem_c8Text)]
  rw [splitRecursive_skip _ hlen4 (findSep_none_of_head_not_mem nl_not_mem_c8Text)]
  rw [splitRecursive_skip _ hlen4 (findSep_none_of_head_not_mem dot_not_mem_c8Text)]
  rw [splitRecursive_cons_eq, if_neg hlen4, splitOnSep_c8Text, if_neg (by simp),
    mergeParts_c8Text]
  rw [List.flatMap_cons, List.flatMap_cons, List.flatMap_cons, List.flatMap_nil]
  rw [if_neg (by rw [c8A_length]; omega), if_neg (by rw [c8A2_length]; omega)]
  rfl

theorem splitText_c8CexText :
    splitText c8CexText 4000 = [c8B, c8B, c8B, c8B2] := by
  have hlen4 : ¬ c8CexText.length ≤ 4000 := by rw [c8CexText_length]; omega
  rw [splitText, if_neg hlen4]
  unfold SEPARATORS
  rw [splitRecursive_skip _ hlen4 (findSep_none_of_head_not_mem nl_not_mem_c8CexText)]
  rw [splitRecursive_skip _ hlen4 (findSep_none_of_head_not_mem nl_not_mem_c8CexText)]
  rw [splitRecursive_skip _ hlen4 (findSep_none_of_head_not_mem dot_not_mem_c8CexText)]
  rw [splitRecursive_cons_eq, if_neg hlen4, splitOnSep_c8CexText, if_neg (by simp),
    mergeParts_c8CexText]
  rw [List.flatMap_cons, List.flatMap_cons, List.flatMap_cons, List.flatMap_cons,
    List.flatMap_nil]
  rw [if_neg (by rw [c8B_length]; omega), if_neg (by rw [c8B2_length]; omega)]
  rfl

theorem onlySingleSpaceSeps_c8Text : OnlySingleSpaceSeps c8Text := by
  refine ⟨findSep_none_of_head_not_mem nl_not_mem_c8Text,
    findSep_none_of_head_not_mem dot_not_mem_c8Text, ?_⟩
  show findSep [' ', ' ']
      (List.replicate 4000 'a' ++ ' ' :: (List.replicate 4000 'a' ++ ' ' :: List.replicate 1998 'a')) = none
  refine findSep_dspace_block (by decide) 4000 ?_ ?_
  · refine findSep_dspace_block (by decide) 4000 ?_ ?_
    · exact findSep_none_of_head_not_mem (not_mem_rep_char (by decide) 1998)
    · rw [show (1998 : Nat) = 1997 + 1 from rfl, head?_replicate_succ]
      intro h
      exact absurd (Option.some.inj h) (by decide)
  · rw [show (4000 : Nat) = 3999 + 1 from rfl, head?_replicate_append]
    intro h
    exact absurd (Option.some.inj h) (by decide)

theorem onlySingleSpaceSeps_c8CexText : OnlySingleSpaceSeps c8CexText := by
  refine ⟨findSep_none_of_head_not_mem nl_not_mem_c8CexText,
    findSep_none_of_head_not_mem dot_not_mem_c8CexText, ?_⟩
  show findSep [' ', ' ']
      (List.replicate 2500 'a' ++ ' ' :: (List.replicate 2500 'a' ++ ' ' ::
        (List.replicate 2500 'a' ++ ' ' :: List.replicate 2497 'a'))) = none
  refine findSep_dspace_block (by decide) 2500 ?_ ?_
  · refine findSep_dspace_block (by decide) 2500 ?_ ?_
    · refine findSep_dspace_block (by decide) 2500 ?_ ?_
      · exact findSep_none_of_head_not_mem (not_mem_rep_char (by decide) 2497)
      · rw [show (2497 : Nat) = 2496 + 1 from rfl, head?_replicate_succ]
        intro h
        exact absurd (Option.some.inj h) (by decide)
    · rw [show (2500 : Nat) = 2499 + 1 from rfl, head?_replicate_append]
      intro h
      exact absurd (Option.some.inj h) (by decide)
  · rw [show (2500 : Nat) = 2499 + 1 from rfl, head?_replicate_append]
    intro h
    exact absurd (Option.some.inj h) (by decide)

theorem streamChunk_constOverflow (c : List Char) :
    streamChunk constOverflowOracle c = ⟨[], 1, Res.err ErrKind.overflow⟩ := rfl

theorem processR_constOverflow_small {maxC : Nat} (ab : Bool) :
    ∀ r c, c.length ≤ maxC / 2 →
      (processR constOverflowOracle maxC ab r c).calls ≤ r + 1 ∧
        ∃ e, (processR constOverflowOracle maxC ab r c).result = Res.err e := by
  intro r
  induction r with
  | zero =>
    intro c _
    rw [processR_zero, streamChunk_constOverflow]
    exact ⟨le_rfl, ErrKind.overflow, rfl⟩
  | succ n ih =>
    intro c hc
    rw [processR_succ_overflow maxC ab n (streamChunk_constOverflow c)]
    have hsplit : splitText c (maxC / 2) = [c] := by
      rw [splitText, if_pos hc]
    rw [hsplit]
    cases ab with
    | true =>
      rw [goList_cons_abort]
      exact ⟨by dsimp only; omega, ErrKind.abort, rfl⟩
    | false =>
      obtain ⟨h1, e, h2⟩ := ih c hc
      cases hp : processR constOverflowOracle maxC false n c with
      | mk ds m res =>
        rw [hp] at h1 h2
        dsimp only at h1 h2
        subst h2
        rw [goList_cons_err hp]
        refine ⟨?_, e, rfl⟩
        dsimp only
        omega

/-- With an always-overflow backend and any chunk, the bounded retry makes
at most `remaining + 2` backend calls (one failing attempt per level plus
the first failing sub-chunk chain), in particular at most
`MAX_RETRY_DEPTH + 2 = 4` calls from depth `0`. -/
theorem processR_constOverflow_calls {maxC : Nat} (h2 : 2 ≤ maxC) (ab : Bool) :
    ∀ r c, (processR constOverflowOracle maxC ab r c).calls ≤ r + 2 := by
  intro r c
  cases r with
  | zero => rw [processR_zero, streamChunk_constOverflow]; simp
  | succ n =>
    rw [processR_succ_overflow maxC ab n (streamChunk_constOverflow c)]
    have hhalf : 1 ≤ maxC / 2 := by omega
    cases hs : splitText c (maxC / 2) with
    | nil => rw [goList_nil]; simp
    | cons s rest =>
      have hsmall : s.length ≤ maxC / 2 :=
        splitText_length_le hhalf s (by rw [hs]; simp)
      cases ab with
      | true => rw [goList_cons_abort]; simp
      | false =>
        obtain ⟨h1, e, hres⟩ := processR_constOverflow_small false n s hsmall
        cases hp : processR constOverflowOracle maxC false n s with
        | mk ds m res =>
          rw [hp] at h1 hres
          dsimp only at h1 hres
          subst hres
          rw [goList_cons_err hp]
          dsimp only
          omega

/-! ### Concrete oracles and inputs used by the claims -/

/-- A backend on which every chunk succeeds, streaming the chunk itself as
a single delta. -/
def okOracle : Oracle := fun c => ⟨[c], none⟩

/-- 385 characters: `a` then a space then 383 `b`s. -/
def c2Text : List Char := 'a' :: ' ' :: List.replicate 383 'b'

/-- A backend that streams one delta `x` and then fails with an
overflow-classified error on the full 385-character text, and succeeds
(streaming the chunk as one delta) on everything else. -/
def c2Oracle : Oracle := fun c =>
  if c = c2Text then ⟨[['x']], some ErrKind.overflow⟩ else ⟨[c], none⟩

/-- The aggregated content of the recovered `call` on `c2Text`: the two
sub-chunks (the space separator between them is dropped by the splitter). -/
def c2Content : List Char := 'a' :: List.replicate 383 'b'

/-- A 192-character word of `d`s. -/
def c5D : List Char := List.replicate 192 'd'

/-- 578 characters: three 192-character words (`a`s, `b`s, `d`s) separated
by single spaces.  Splitting it at budget `768 / 2 = 384` yields three
sub-chunks, since no two adjacent words fit in 384 characters. -/
def c5Chunk : List Char :=
  List.replicate 192 'a' ++ ' ' :: (List.replicate 192 'b' ++ ' ' :: c5D)

/-- A backend rejecting the 578-character chunk and its third sub-chunk as
oversized, succeeding on everything else. -/
def c5Oracle : Oracle := fun c =>
  if c = c5Chunk then ⟨[], some ErrKind.overflow⟩
  else if c = c5D then ⟨[], some ErrKind.overflow⟩
  else ⟨[c], none⟩

/-- 769 spaces: longer than the minimal 768-character budget and consisting
solely of separators, so the splitter returns no chunks at all. -/
def c6Text : List Char := List.replicate 769 ' '

/-! ### Claims -/

/-- Claim C1 (counterexample): for `T = " aaaa"` and `B = 4` the splitter
returns the single chunk `"aaaa"`; no interleaving of the chunks with
separators (one per internal boundary, or nothing at a hard-slice boundary)
reconstructs `T` — the leading space adjacent to the dropped empty split
part is lost. -/
theorem c1_strict_rejoin_counterexample :
    ¬ StrictRejoin (" aaaa".toList) (splitText (" aaaa".toList) 4) := by
  rw [show splitText (" aaaa".toList) 4 = [['a', 'a', 'a', 'a']] from by decide]
  rintro ⟨seps, hlen, _, hglue⟩
  cases seps with
  | cons s ss =>
    simp only [List.length_cons, List.length_nil] at hlen
    omega
  | nil => exact absurd hglue (by decide)

/-- Claim C1 (amended): for every text `T` and bound `B ≥ 1`, the chunks of
`splitText T B`, in order, reconstruct `T` once a (possibly empty) run of
separator strings is restored before, between and after them; separator
occurrences adjacent to empty split pieces are dropped and are the only
loss. -/
theorem c1_rejoin_reassembles {text : List Char} {B : Nat} (hB : 1 ≤ B) :
    Reassembles text (splitText text B) :=
  splitText_reassembles hB

/-- Witness for C1 at `T = "a b"`, `B = 1` (result `[['a'], ['b']]`). -/
theorem c1_rejoin_reassembles_witness :
    Reassembles ("a b".toList) [['a'], ['b']] := by
  have h := @c1_rejoin_reassembles ("a b".toList) 1 (by decide)
  rw [show splitText ("a b".toList) 1 = [['a'], ['b']] from by decide] at h
  exact h

/-- Claim C2 (counterexample): on a 385-character text whose only chunk
streams one delta `x`, then fails with an overflow-classified error and is
recovered by the bounded re-split retry, `call` resolves successfully but
the concatenation of all emitted deltas is `x` followed by the content —
not the content. -/
theorem c2_deltas_counterexample :
    (call c2Oracle false c2Text (some 512) none 0).result = Res.ok c2Content ∧
      (call c2Oracle false c2Text (some 512) none 0).deltas.flatten ≠ c2Content := by
  constructor
  · decide
  · decide

/-- Claim C2 (amended): if every failed attempt of the backend emitted zero
deltas before failing, then for every successfully resolving `call` the
concatenation of all emitted deltas, in emission order, equals the returned
content exactly; deltas emitted by an attempt that later fails are extra
output the aggregate never contains. -/
theorem c2_clean_streaming {oracle : Oracle} (hcl : CleanFailures oracle)
    (ab : Bool) (text : List Char) (cl det : Option Int) (pl : Nat)
    {content : List Char}
    (hres : (call oracle ab text cl det pl).result = Res.ok content) :
    (call oracle ab text cl det pl).deltas.flatten = content :=
  call_deltasMatch hcl ab text cl det pl content hres

/-- Witness for C2 on an always-succeeding backend and the text `"ab"`. -/
theorem c2_clean_streaming_witness :
    (call okOracle false ("ab".toList) (some 512) none 0).deltas.flatten =
      "ab".toList := by
  have hcl : CleanFailures okOracle := fun c h => absurd rfl h
  exact c2_clean_streaming hcl false ("ab".toList) (some 512) none 0 (by decide)

/-- Claim C3: for every text `T` and bound `B ≥ 1`, every chunk returned by
`splitText T B` has length at most `B`. -/
theorem c3_chunk_length_le {text : List Char} {B : Nat} (hB : 1 ≤ B) :
    ∀ c ∈ splitText text B, c.length ≤ B :=
  splitText_length_le hB

/-- Witness for C3: the chunk `['a', 'a']` of `splitText "aaaa" 2` has
length at most 2. -/
theorem c3_chunk_length_le_witness : (['a', 'a'] : List Char).length ≤ 2 :=
  @c3_chunk_length_le ("aaaa".toList) 2 (by decide) ['a', 'a'] (by decide)

/-- Claim C4: when a chunk's call fails with error kind `e`, the retry
logic re-splits the chunk at half the character budget and processes each
sub-chunk through the same logic at `depth + 1`, concatenating the
recovered sub-results in order, exactly when `e` is overflow-classified and
`depth < MAX_RETRY_DEPTH = 2`; otherwise the error is propagated
unchanged. -/
theorem c4_retry_behavior {oracle : Oracle} (maxC : Nat) (ab : Bool)
    (depth : Nat) {chunk : List Char} {ds : List (List Char)} {n : Nat}
    {e : ErrKind} (hfail : streamChunk oracle chunk = ⟨ds, n, Res.err e⟩) :
    processChunkWithRetry oracle maxC ab depth chunk =
      if e = ErrKind.overflow ∧ depth < MAX_RETRY_DEPTH then
        ⟨ds ++ (goList (processChunkWithRetry oracle maxC ab (depth + 1)) ab
            (splitText chunk (maxC / 2))).deltas,
          n + (goList (processChunkWithRetry oracle maxC ab (depth + 1)) ab
            (splitText chunk (maxC / 2))).calls,
          (goList (processChunkWithRetry oracle maxC ab (depth + 1)) ab
            (splitText chunk (maxC / 2))).result⟩
      else ⟨ds, n, Res.err e⟩ := by
  by_cases hc : e = ErrKind.overflow ∧ depth < MAX_RETRY_DEPTH
  · rw [if_pos hc]
    obtain ⟨he, hd⟩ := hc
    subst he
    unfold processChunkWithRetry
    obtain ⟨k, hk⟩ : ∃ k, MAX_RETRY_DEPTH - depth = k + 1 :=
      ⟨MAX_RETRY_DEPTH - depth - 1, by omega⟩
    have hk2 : MAX_RETRY_DEPTH - (depth + 1) = k := by omega
    rw [hk, hk2, processR_succ_overflow maxC ab k hfail]
  · rw [if_neg hc]
    unfold processChunkWithRetry
    by_cases he : e = ErrKind.overflow
    · have hd : ¬ depth < MAX_RETRY_DEPTH := fun h => hc ⟨he, h⟩
      have h0 : MAX_RETRY_DEPTH - depth = 0 := by omega
      rw [h0, processR_zero, hfail]
    · cases hmd : MAX_RETRY_DEPTH - depth with
      | zero => rw [processR_zero, hfail]
      | succ k => rw [processR_succ_err maxC ab k hfail he]

/-- Witness for C4: an always-overflowing backend on the chunk `"abc"` at
depth 0 with budget 4 makes the failing call, re-splits at budget 2 into
`["ab", "c"]`, fails again on `"ab"` at depth 1 and on its re-split
`["ab"]` at depth 2, and propagates the overflow error after 3 calls. -/
theorem c4_retry_behavior_witness :
    processChunkWithRetry constOverflowOracle 4 false 0 ("abc".toList) =
      ⟨[], 3, Res.err ErrKind.overflow⟩ := by
  rw [c4_retry_behavior 4 false 0
    (show streamChunk constOverflowOracle ("abc".toList) =
      ⟨[], 1, Res.err ErrKind.overflow⟩ from rfl)]
  decide

/-- Claim C5 (counterexample): with budget 768, a 578-character chunk of
three words re-splits into three sub-chunks; a backend rejecting the chunk
and its third sub-chunk as oversized, and succeeding on the first two,
receives 5 backend calls for that chunk before the error propagates —
more than `2 ^ MAX_RETRY_DEPTH = 4`. -/
theorem c5_call_count_counterexample :
    (c5Oracle c5Chunk).err = some ErrKind.overflow ∧
      (processChunkWithRetry c5Oracle 768 false 0 c5Chunk).calls = 5 ∧
      ¬ (5 ≤ 2 ^ MAX_RETRY_DEPTH) := by
  refine ⟨?_, ?_, by decide⟩
  · decide
  · decide

/-- Claim C5 (amended): with a backend mock that always fails with an
overflow-classified error, the retry performs at most 4 backend calls per
chunk — within `2 ^ MAX_RETRY_DEPTH` — before propagating; with mixed
success and failure the count is instead bounded by the number of
sub-chunks attempted, which can exceed `2 ^ MAX_RETRY_DEPTH` when a
re-split yields more than two sub-chunks. -/
theorem c5_always_overflow_bound {maxC : Nat} (h2 : 2 ≤ maxC) (ab : Bool)
    (chunk : List Char) :
    (processChunkWithRetry constOverflowOracle maxC ab 0 chunk).calls ≤
      2 ^ MAX_RETRY_DEPTH := by
  unfold processChunkWithRetry
  exact le_trans (processR_constOverflow_calls h2 ab (MAX_RETRY_DEPTH - 0) chunk)
    (by decide)

/-- Witness for C5 at budget 768 on the chunk `"hello world"`. -/
theorem c5_always_overflow_bound_witness :
    (processChunkWithRetry constOverflowOracle 768 false 0
      ("hello world".toList)).calls ≤ 2 ^ MAX_RETRY_DEPTH :=
  c5_always_overflow_bound (by decide) false ("hello world".toList)

/-- Claim C6 (counterexample): with the cancellation flag already set and a
769-space input (budget 768), the splitter returns no chunks, the chunk
loop never runs, and `call` resolves successfully with empty content
instead of failing with the cancellation kind — though it still makes zero
backend calls and emits zero deltas. -/
theorem c6_abort_counterexample :
    call okOracle true c6Text (some 512) none 0 = ⟨[], 0, Res.ok []⟩ ∧
      Res.ok ([] : List Char) ≠ Res.err ErrKind.abort := by
  constructor
  · decide
  · decide

/-- Claim C6 (amended): with the cancellation flag set before the first
chunk, `call` makes zero backend chunk calls and emits zero deltas; it
fails with the cancellation kind whenever the splitter returned at least
one chunk, and otherwise resolves with empty content. -/
theorem c6_aborted_call (oracle : Oracle) (text : List Char)
    (cl det : Option Int) (pl : Nat) :
    call oracle true text cl det pl =
      ⟨[], 0,
        if splitText text (computeMaxChunkChars cl det pl).toNat = [] then Res.ok []
        else Res.err ErrKind.abort⟩ :=
  call_aborted_eq oracle text cl det pl

/-- Claim C7: for every settings record (any `contextLength`, any detected
value, any prompt length) the effective chunk character budget is at least
`MIN_CONTENT_TOKENS * CHARS_PER_TOKEN = 768` characters, in particular
positive. -/
theorem c7_budget_floor (cl det : Option Int) (pl : Nat) :
    MIN_CONTENT_TOKENS * CHARS_PER_TOKEN = 768 ∧
      (768 : Int) ≤ computeMaxChunkChars cl det pl ∧
      (0 : Int) < computeMaxChunkChars cl det pl := by
  have h : (768 : Int) ≤ computeMaxChunkChars cl det pl := by
    unfold computeMaxChunkChars
    dsimp only
    calc (768 : Int) = (MIN_CONTENT_TOKENS : Int) * (CHARS_PER_TOKEN : Int) := by
          norm_num [MIN_CONTENT_TOKENS, CHARS_PER_TOKEN]
      _ ≤ _ := mul_le_mul_of_nonneg_right (le_max_left _ _)
          (by norm_num [CHARS_PER_TOKEN])
  exact ⟨rfl, h, lt_of_lt_of_le (by norm_num) h⟩

/-- Claim C9: for every text `c` and bound `B ≥ 1` with `c.length ≤ B`,
`splitText c B` returns the singleton `[c]`; the splitter is the identity
on already-conforming chunks. -/
theorem c9_conforming_identity {c : List Char} {B : Nat} (hB : 1 ≤ B)
    (h : c.length ≤ B) : splitText c B = [c] := by
  rw [splitText, if_pos h]

/-- Witness for C9 at `c = "ab"`, `B = 5`. -/
theorem c9_conforming_identity_witness :
    splitText ("ab".toList) 5 = ["ab".toList] :=
  c9_conforming_identity (by decide) (by decide)

/-- Claim C10 (counterexample): the non-empty text of two spaces with bound
1 yields the empty chunk list — all parts produced by splitting on the
space separator are empty and the greedy merge drops them all. -/
theorem c10_nonempty_counterexample :
    "  ".toList ≠ ([] : List Char) ∧ 1 ≤ 1 ∧ splitText ("  ".toList) 1 = [] := by
  refine ⟨by decide, by decide, by decide⟩

/-- Claim C10 (amended): for every non-empty text `T` and bound `B ≥ 1`, no
chunk of `splitText T B` is the empty string; the chunk list itself can
only be empty when `T` is a concatenation of separator strings (e.g. all
spaces), which is then entirely dropped. -/
theorem c10_chunks_nonempty {text : List Char} {B : Nat} (hB : 1 ≤ B)
    (htext : text ≠ []) :
    (∀ c ∈ splitText text B, c ≠ []) ∧ (splitText text B = [] → SepRun text) :=
  ⟨splitText_mem_ne_nil hB htext, sepRun_of_splitText_nil hB⟩

/-- Witness for C10: the chunk `['a']` of `splitText "ab" 1` is
non-empty. -/
theorem c10_chunks_nonempty_witness : (['a'] : List Char) ≠ [] :=
  (@c10_chunks_nonempty ['a', 'b'] 1 (by decide) (by decide)).1 ['a'] (by decide)

/-- Claim C8 (counterexample): a 10,000-character text whose only natural
separators are single spaces — three 2,500-character words and one
2,497-character word — splits at budget 4,000 into 4 chunks, not 3: greedy
merging cannot pair any two adjacent words. -/
theorem c8_counterexample :
    c8CexText.length = 10000 ∧ OnlySingleSpaceSeps c8CexText ∧
      (splitText c8CexText 4000).length ≠ 3 := by
  refine ⟨c8CexText_length, onlySingleSpaceSeps_c8CexText, ?_⟩
  rw [splitText_c8CexText]
  simp

/-- Claim C8 (amended): there is a 10,000-character text whose only natural
separators are single spaces for which `splitText` with budget 4,000
returns exactly 3 chunks, none exceeding 4,000 characters, whose
concatenation with the spaces restored equals the original text; for other
space placements the greedy merge can return more than 3 chunks. -/
theorem c8_scenario :
    c8Text.length = 10000 ∧ OnlySingleSpaceSeps c8Text ∧
      splitText c8Text 4000 = [c8A, c8A, c8A2] ∧
      (splitText c8Text 4000).length = 3 ∧
      (∀ c ∈ splitText c8Text 4000, c.length ≤ 4000) ∧
      glue [' '] [c8A, c8A, c8A2] = c8Text := by
  refine ⟨c8Text_length, onlySingleSpaceSeps_c8Text, splitText_c8Text, ?_, ?_, ?_⟩
  · rw [splitText_c8Text, List.length_cons, List.length_cons, List.length_cons,
      List.length_nil]
  · intro c hc
    exact splitText_length_le (by omega) c hc
  · show glue [' '] [c8A, c8A, c8A2] = c8A ++ ' ' :: (c8A ++ ' ' :: c8A2)
    rw [glue, glue, glue]
    simp only [List.append_assoc, List.singleton_append]

end LlmSanitizer
